import Mathlib

/-!
Verification development for the CPM (causal pixel model) pipeline of
tess_cpm/tess_cpm.py.  Every definition below is a shallow embedding of a
piece of that file; line numbers in the doc comments refer to it.
Machine floats are modelled by exact rationals.
-/

namespace TessCpm

/-- Executable determinant of a rational square matrix by Laplace expansion
along row 0; proved equal to the Mathlib determinant below, and used so that
concrete linear solves evaluate inside the kernel. -/
def detQ : {n : ℕ} → Matrix (Fin n) (Fin n) ℚ → ℚ
  | 0, _ => 1
  | n + 1, A =>
      ∑ j : Fin (n + 1),
        (-1) ^ (j : ℕ) * A 0 j * detQ (A.submatrix Fin.succ j.succAbove)

theorem detQ_eq : ∀ {n : ℕ} (A : Matrix (Fin n) (Fin n) ℚ), detQ A = A.det
  | 0, A => by rw [detQ, Matrix.det_fin_zero]
  | n + 1, A => by
    rw [detQ, Matrix.det_succ_row_zero]
    exact Finset.sum_congr rfl fun j _ => by rw [detQ_eq]

/-- Executable Cramer-rule vector: component i is the determinant of the
matrix with column i replaced by b. -/
def cramerQ {n : ℕ} (A : Matrix (Fin n) (Fin n) ℚ) (b : Fin n → ℚ) :
    Fin n → ℚ :=
  fun i => detQ (A.updateColumn i b)

theorem cramerQ_eq {n : ℕ} (A : Matrix (Fin n) (Fin n) ℚ) (b : Fin n → ℚ) :
    cramerQ A b = Matrix.cramer A b :=
  funext fun i => by rw [cramerQ, detQ_eq, Matrix.cramer_apply]

/-- Embedding of numpy linalg solve for a square rational system: returns the
unique solution when the matrix is invertible (nonzero determinant) and fails
(numpy raises LinAlgError) when it is singular.  The solution is produced by
the Cramer rule, which agrees with any solution method on an invertible
system. -/
def solveLin {n : ℕ} (A : Matrix (Fin n) (Fin n) ℚ) (b : Fin n → ℚ) :
    Option (Fin n → ℚ) :=
  if detQ A = 0 then none else some ((detQ A)⁻¹ • cramerQ A b)

theorem solveLin_spec {n : ℕ} {A : Matrix (Fin n) (Fin n) ℚ} {b x : Fin n → ℚ}
    (h : solveLin A b = some x) : A.mulVec x = b := by
  unfold solveLin at h
  by_cases hd : detQ A = 0
  · simp [hd] at h
  · simp only [hd, if_false, Option.some.injEq] at h
    subst h
    rw [cramerQ_eq, detQ_eq A, Matrix.mulVec_smul, Matrix.mulVec_cramer,
      smul_smul, inv_mul_cancel₀ (by rw [detQ_eq] at hd; exact hd), one_smul]

/-- Lines 320 to 323 of lsq (shared verbatim by xval, lines 237 to 240): form
the regularized normal equations  a = m.T m + reg_matrix,  b = m.T y  and call
numpy linalg solve on them.  The regularization matrix of the source is the
diagonal matrix of the vector reg. -/
def lsqCore {p : ℕ} {ι : Type} [Fintype ι] [DecidableEq ι]
    (reg : Fin p → ℚ) (m : Matrix ι (Fin p) ℚ) (y : ι → ℚ) :
    Option (Fin p → ℚ) :=
  solveLin (m.transpose * m + Matrix.diagonal reg) (m.transpose.mulVec y)

/-- Modelled from the spec: the ordinary least-squares solution, obtained by
solving the unregularized normal equations  (m.T m) beta = m.T y.  Used only
to compare the source solver against the spec wording of claim C1. -/
def olsSolve {p : ℕ} {ι : Type} [Fintype ι] [DecidableEq ι]
    (m : Matrix ι (Fin p) ℚ) (y : ι → ℚ) : Option (Fin p → ℚ) :=
  solveLin (m.transpose * m) (m.transpose.mulVec y)

theorem lsqCore_spec {p : ℕ} {ι : Type} [Fintype ι] [DecidableEq ι]
    {reg : Fin p → ℚ} {m : Matrix ι (Fin p) ℚ} {y : ι → ℚ} {β : Fin p → ℚ}
    (h : lsqCore reg m y = some β) :
    (m.transpose * m + Matrix.diagonal reg).mulVec β = m.transpose.mulVec y :=
  solveLin_spec h

theorem lsqCore_zero_reg {p : ℕ} {ι : Type} [Fintype ι] [DecidableEq ι]
    {reg : Fin p → ℚ} (m : Matrix ι (Fin p) ℚ) (y : ι → ℚ)
    (hreg : ∀ i, reg i = 0) : lsqCore reg m y = olsSolve m y := by
  unfold lsqCore olsSolve
  have : Matrix.diagonal reg = 0 := by
    have : reg = fun _ => 0 := funext hreg
    rw [this]
    exact Matrix.diagonal_zero
  rw [this, add_zero]

/-- numpy hstack of two matrices with the same number of rows, as used at
line 309 to append the trend basis columns to the predictor columns. -/
def hstack {T a b : ℕ} (A : Matrix (Fin T) (Fin a) ℚ)
    (B : Matrix (Fin T) (Fin b) ℚ) : Matrix (Fin T) (Fin (a + b)) ℚ :=
  Matrix.of fun i => Fin.append (A i) (B i)

/-- Lines 312 to 313: np.hstack of cpm_reg repeated over the npred predictor
columns and poly_reg repeated over the pterms trend columns; multiplying it
by the identity matrix makes it the diagonal of the regularization matrix. -/
def regVec (npred pterms : ℕ) (cpm_reg poly_reg : ℚ) :
    Fin (npred + pterms) → ℚ :=
  Fin.append (fun _ => cpm_reg) (fun _ => poly_reg)

/-- The CPM object attributes read by lsq: raw and rescaled target series,
raw and rescaled predictor-flux matrices (one column per predictor pixel,
lines 191 to 192), the Vandermonde trend basis v_matrix (line 101) and the
trend regularization strength poly_reg (line 102). -/
structure LsqInputs (T npred pterms : ℕ) where
  target_fluxes : Fin T → ℚ
  rescaled_target_fluxes : Fin T → ℚ
  predictor_pixels_fluxes : Matrix (Fin T) (Fin npred) ℚ
  rescaled_predictor_pixels_fluxes : Matrix (Fin T) (Fin npred) ℚ
  v_matrix : Matrix (Fin T) (Fin pterms) ℚ
  poly_reg : ℚ

/-- The fit fields of the CPM object that lsq mutates (assigned at lines 284
to 349), for a session whose fits use polynomials=True, so that the design
matrix always has npred + pterms columns.  Before the first fit orig_m is
None in the source; the orig_m field of an untrained state is never read
(line 315 overwrites it before use).  The attribute self.m (line 317) is
omitted: its row dimension changes from call to call and no claim reads
it. -/
structure PolyFitState (T npred pterms : ℕ) where
  trained : Bool
  cpm_regularization : ℚ
  orig_m : Matrix (Fin T) (Fin (npred + pterms)) ℚ
  lsq_params : Fin (npred + pterms) → ℚ
  cpm_params : Fin npred → ℚ
  poly_params : Fin pterms → ℚ
  lsq_prediction : Fin T → ℚ
  const_prediction : ℚ
  cpm_prediction : Fin T → ℚ
  poly_prediction : Fin T → ℚ
  residual : Fin T → ℚ

/-- Line 296 and 293 of lsq without override inputs: the target vector is the
rescaled or the raw target series according to the rescale flag. -/
def lsqPolyTarget {T npred pterms : ℕ} (rescale : Bool)
    (inp : LsqInputs T npred pterms) : Fin T → ℚ :=
  if rescale then inp.rescaled_target_fluxes else inp.target_fluxes

/-- Lines 290 to 298 plus 307 to 309 of lsq without override inputs and with
polynomials=True: the predictor matrix is the rescaled or the raw
predictor-flux matrix according to the rescale flag, and since updated_m is
None the trend basis is concatenated onto it in either case, the
concatenation being conditioned on updated_m only, not on rescale. -/
def lsqPolyDesign {T npred pterms : ℕ} (rescale : Bool)
    (inp : LsqInputs T npred pterms) :
    Matrix (Fin T) (Fin (npred + pterms)) ℚ :=
  hstack
    (if rescale then inp.rescaled_predictor_pixels_fluxes
      else inp.predictor_pixels_fluxes)
    inp.v_matrix

/-- Lines 323 to 349 of lsq after the linear solve, in the polynomials=True
branch: split the coefficient vector into the leading npred predictor
coefficients and the trailing trend coefficients, compute the full
prediction, the predictor-only prediction and the constant-removed trend
prediction from the reference matrix origm (lines 328, 338, 339), mark the
model trained and set the residual against the rescaled target series
(line 349, which uses the rescaled series whatever the rescale flag was). -/
def fitTail {T npred pterms : ℕ} [NeZero pterms]
    (inp : LsqInputs T npred pterms) (cpm_reg : ℚ)
    (origm : Matrix (Fin T) (Fin (npred + pterms)) ℚ)
    (β : Fin (npred + pterms) → ℚ) : PolyFitState T npred pterms :=
  let cpmp : Fin npred → ℚ := fun j => β (Fin.castAdd pterms j)
  let polyp : Fin pterms → ℚ := fun j => β (Fin.natAdd npred j)
  let pred : Fin T → ℚ := origm.mulVec β
  let constp : ℚ := polyp 0
  { trained := true
    cpm_regularization := cpm_reg
    orig_m := origm
    lsq_params := β
    cpm_params := cpmp
    poly_params := polyp
    lsq_prediction := pred
    const_prediction := constp
    cpm_prediction := fun i => ∑ j, origm i (Fin.castAdd pterms j) * cpmp j
    poly_prediction :=
      fun i => (∑ j, origm i (Fin.natAdd npred j) * polyp j) - constp
    residual := fun i => inp.rescaled_target_fluxes i - pred i }

/-- CPM.lsq (lines 284 to 350) called without override inputs, with
polynomials=True: assemble the design matrix and regularization vector,
freeze the design matrix as orig_m when the model is not yet trained
(lines 315 to 316), solve the regularized normal equations, and fill the fit
fields; numpy raising on a singular system is the failure outcome none. -/
def lsqPolyFull {T npred pterms : ℕ} [NeZero pterms]
    (inp : LsqInputs T npred pterms) (cpm_reg : ℚ) (rescale : Bool)
    (s : PolyFitState T npred pterms) : Option (PolyFitState T npred pterms) :=
  let y := lsqPolyTarget rescale inp
  let m := lsqPolyDesign rescale inp
  let origm := if s.trained then s.orig_m else m
  match lsqCore (regVec npred pterms cpm_reg inp.poly_reg) m y with
  | none => none
  | some β => some (fitTail inp cpm_reg origm β)

/-- CPM. _rerun (lines 444 to 447) followed by CPM.lsq with override inputs:
updated_y is the valid subset of the rescaled target and updated_m the valid
rows of the frozen reference matrix orig_m; with updated_m present the trend
concatenation at line 309 is skipped while the regularization vector is
rebuilt as before, and the solve runs on the subset system.  The stored
cpm_regularization, passed back explicitly at line 447, is reused.  The
function only runs after a successful fit: were the model untrained, line 446
would already fail on orig_m = None, modelled as the failure outcome none. -/
def rerun {T npred pterms : ℕ} [NeZero pterms]
    (inp : LsqInputs T npred pterms) (s : PolyFitState T npred pterms)
    (valid : Fin T → Bool) : Option (PolyFitState T npred pterms) :=
  if s.trained = false then none else
  let y' : {i : Fin T // valid i = true} → ℚ :=
    fun i => inp.rescaled_target_fluxes i.1
  let m' : Matrix {i : Fin T // valid i = true} (Fin (npred + pterms)) ℚ :=
    Matrix.of fun i j => s.orig_m i.1 j
  match lsqCore (regVec npred pterms s.cpm_regularization inp.poly_reg) m' y' with
  | none => none
  | some β => some (fitTail inp s.cpm_regularization s.orig_m β)

/-- C1: every fit performed by lsq solves the regularized normal equations.
In the polynomials branch, the coefficient vector stored by a successful full
fit satisfies (M.T M + diag reg) beta = M.T y for the assembled design matrix
M, target y and the regularization vector that replicates cpm_reg over the
predictor columns and poly_reg over the trend columns; and for any design
matrix and target, when every regularization entry is 0 the solver output
coincides with the ordinary least-squares solution of the unregularized
normal equations. -/
theorem c1_normal_equations {T npred pterms : ℕ} [NeZero pterms]
    (inp : LsqInputs T npred pterms) (cpm_reg : ℚ) (rescale : Bool)
    (s t : PolyFitState T npred pterms)
    (h : lsqPolyFull inp cpm_reg rescale s = some t) :
    ((lsqPolyDesign rescale inp).transpose * lsqPolyDesign rescale inp +
        Matrix.diagonal (regVec npred pterms cpm_reg inp.poly_reg)).mulVec
        t.lsq_params =
      (lsqPolyDesign rescale inp).transpose.mulVec (lsqPolyTarget rescale inp)
    ∧ ∀ {p : ℕ} {ι : Type} [Fintype ι] [DecidableEq ι]
        (reg : Fin p → ℚ) (m : Matrix ι (Fin p) ℚ) (y : ι → ℚ),
        (∀ i, reg i = 0) → lsqCore reg m y = olsSolve m y := by
  constructor
  · cases hc : lsqCore (regVec npred pterms cpm_reg inp.poly_reg)
        (lsqPolyDesign rescale inp) (lsqPolyTarget rescale inp) with
    | none => simp only [lsqPolyFull, hc] at h; exact Option.noConfusion h
    | some β =>
      simp only [lsqPolyFull, hc, Option.some.injEq] at h
      have hp : t.lsq_params = β := by rw [← h]; rfl
      rw [hp]
      exact lsqCore_spec hc
  · intro p ι _ _ reg m y hreg
    exact lsqCore_zero_reg m y hreg

/-- Concrete inputs for the fit witnesses: one time sample, one predictor
pixel, one trend column. -/
def wInp : LsqInputs 1 1 1 where
  target_fluxes := ![10]
  rescaled_target_fluxes := ![3]
  predictor_pixels_fluxes := Matrix.of ![![10]]
  rescaled_predictor_pixels_fluxes := Matrix.of ![![1]]
  v_matrix := Matrix.of ![![1]]
  poly_reg := 1

/-- A fresh, untrained fit state for the witnesses. -/
def wS0 : PolyFitState 1 1 1 where
  trained := false
  cpm_regularization := 0
  orig_m := Matrix.of ![![0, 0]]
  lsq_params := ![0, 0]
  cpm_params := ![0]
  poly_params := ![0]
  lsq_prediction := ![0]
  const_prediction := 0
  cpm_prediction := ![0]
  poly_prediction := ![0]
  residual := ![0]

theorem wCore_eval :
    lsqCore (regVec 1 1 (1 : ℚ) wInp.poly_reg) (lsqPolyDesign true wInp)
      (lsqPolyTarget true wInp) = some ![1, 1] := by
  unfold lsqCore solveLin
  norm_num [detQ, cramerQ, regVec, lsqPolyDesign, lsqPolyTarget, wInp, hstack,
    Matrix.mul_apply, Matrix.mulVec, Matrix.dotProduct, Matrix.diagonal,
    Matrix.transpose, Fin.sum_univ_succ, Matrix.updateColumn, Function.update,
    Fin.append, Fin.addCases, Matrix.of_apply, Matrix.cons_val_zero,
    Matrix.cons_val_one, Matrix.head_cons, Fin.succAbove, Matrix.submatrix]
  funext i
  fin_cases i <;>
    norm_num [detQ, cramerQ, Fin.sum_univ_succ, Matrix.updateColumn,
      Function.update, Matrix.of_apply, Matrix.cons_val_zero,
      Matrix.cons_val_one, Matrix.head_cons, Fin.succAbove, Matrix.submatrix,
      Pi.smul_apply, smul_eq_mul, Matrix.vecHead, Function.comp,
      Matrix.mul_apply, Fin.append, Fin.addCases]

/-- The state produced by the witness fit. -/
def wT0 : PolyFitState 1 1 1 := fitTail wInp 1 (lsqPolyDesign true wInp) ![1, 1]

theorem wFit_eval : lsqPolyFull wInp 1 true wS0 = some wT0 := by
  simp only [lsqPolyFull, wCore_eval]
  rfl

/-- Witness for C1 at the concrete one-sample fit. -/
theorem c1_normal_equations_witness :
    lsqPolyFull wInp 1 true wS0 = some wT0 ∧
    (((lsqPolyDesign true wInp).transpose * lsqPolyDesign true wInp +
        Matrix.diagonal (regVec 1 1 1 wInp.poly_reg)).mulVec wT0.lsq_params =
      (lsqPolyDesign true wInp).transpose.mulVec (lsqPolyTarget true wInp)
      ∧ ∀ {p : ℕ} {ι : Type} [Fintype ι] [DecidableEq ι]
          (reg : Fin p → ℚ) (m : Matrix ι (Fin p) ℚ) (y : ι → ℚ),
          (∀ i, reg i = 0) → lsqCore reg m y = olsSolve m y) :=
  ⟨wFit_eval, c1_normal_equations wInp 1 true wS0 wT0 wFit_eval⟩

/-- C2: once a fit has succeeded (trained is set), no later lsq call
reassigns orig_m: a later full fit keeps orig_m and computes its full,
predictor-only and trend-only predictions from it, and a sigma-clip re-fit
through _rerun keeps orig_m, solves on the valid-row subset of orig_m and of
the rescaled target, and still computes all three predictions from the full
orig_m rather than from the subset matrix it solved with. -/
theorem c2_orig_m_frozen {T npred pterms : ℕ} [NeZero pterms]
    (inp : LsqInputs T npred pterms) (cpm_reg : ℚ) (rescale : Bool)
    (valid : Fin T → Bool) (s s1 s2 : PolyFitState T npred pterms)
    (ht : s.trained = true)
    (h1 : lsqPolyFull inp cpm_reg rescale s = some s1)
    (h2 : rerun inp s valid = some s2) :
    (s1.orig_m = s.orig_m
      ∧ s1.lsq_prediction = s.orig_m.mulVec s1.lsq_params
      ∧ s1.cpm_prediction =
          (fun i => ∑ j, s.orig_m i (Fin.castAdd pterms j) * s1.cpm_params j)
      ∧ s1.poly_prediction =
          (fun i => (∑ j, s.orig_m i (Fin.natAdd npred j) * s1.poly_params j)
            - s1.const_prediction))
    ∧ (s2.orig_m = s.orig_m
      ∧ lsqCore (regVec npred pterms s.cpm_regularization inp.poly_reg)
          (Matrix.of fun (i : {i : Fin T // valid i = true}) j => s.orig_m i.1 j)
          (fun i => inp.rescaled_target_fluxes i.1) = some s2.lsq_params
      ∧ s2.lsq_prediction = s.orig_m.mulVec s2.lsq_params
      ∧ s2.cpm_prediction =
          (fun i => ∑ j, s.orig_m i (Fin.castAdd pterms j) * s2.cpm_params j)
      ∧ s2.poly_prediction =
          (fun i => (∑ j, s.orig_m i (Fin.natAdd npred j) * s2.poly_params j)
            - s2.const_prediction)) := by
  constructor
  · cases hc : lsqCore (regVec npred pterms cpm_reg inp.poly_reg)
        (lsqPolyDesign rescale inp) (lsqPolyTarget rescale inp) with
    | none =>
      simp only [lsqPolyFull, hc] at h1
      exact Option.noConfusion h1
    | some β =>
      simp only [lsqPolyFull, hc, ht, if_true, Option.some.injEq] at h1
      subst h1
      exact ⟨rfl, rfl, rfl, rfl⟩
  · rw [rerun, ht] at h2
    simp only [Bool.true_eq_false, if_false] at h2
    cases hc : lsqCore (regVec npred pterms s.cpm_regularization inp.poly_reg)
        (Matrix.of fun (i : {i : Fin T // valid i = true}) j => s.orig_m i.1 j)
        (fun i => inp.rescaled_target_fluxes i.1) with
    | none => rw [hc] at h2; exact Option.noConfusion h2
    | some β =>
      rw [hc] at h2
      simp only [Option.some.injEq] at h2
      subst h2
      exact ⟨rfl, rfl, rfl, rfl, rfl⟩

/-- The all-true validity mask on the single witness sample. -/
def wValid : Fin 1 → Bool := fun _ => true

theorem wFit_eval2 : lsqPolyFull wInp 1 true wT0 = some wT0 := by
  simp only [lsqPolyFull, wCore_eval]
  rfl

theorem wUniv_eval :
    (Finset.univ : Finset {i : Fin 1 // wValid i = true}) = {⟨0, rfl⟩} := by
  decide

theorem wRerun_eval : rerun wInp wT0 wValid = some wT0 := by
  have hcore : lsqCore (regVec 1 1 wT0.cpm_regularization wInp.poly_reg)
      (Matrix.of fun (i : {i : Fin 1 // wValid i = true}) j => wT0.orig_m i.1 j)
      (fun i => wInp.rescaled_target_fluxes i.1) = some ![1, 1] := by
    unfold lsqCore solveLin
    norm_num [detQ, cramerQ, regVec, wInp, wT0, fitTail, lsqPolyDesign, hstack,
      Matrix.mul_apply, Matrix.mulVec, Matrix.dotProduct, Matrix.diagonal,
      Matrix.transpose, Fin.sum_univ_succ, wUniv_eval, Finset.sum_singleton,
      Matrix.updateColumn, Function.update, Fin.append, Fin.addCases,
      Matrix.of_apply, Matrix.cons_val_zero, Matrix.cons_val_one,
      Matrix.head_cons, Fin.succAbove, Matrix.submatrix]
    funext i
    fin_cases i <;>
      norm_num [detQ, cramerQ, Fin.sum_univ_succ, Matrix.updateColumn,
        Function.update, Matrix.of_apply, Matrix.cons_val_zero,
        Matrix.cons_val_one, Matrix.head_cons, Fin.succAbove,
        Matrix.submatrix, Pi.smul_apply, smul_eq_mul, Matrix.vecHead,
        Function.comp, Matrix.mul_apply, Fin.append, Fin.addCases,
        wUniv_eval, Finset.sum_singleton, wInp, wT0, fitTail, lsqPolyDesign,
        hstack, Matrix.mulVec, Matrix.dotProduct]
  rw [rerun]
  simp only [show wT0.trained = true from rfl, Bool.true_eq_false, if_false,
    hcore]
  rfl

/-- Witness for C2 at the concrete trained one-sample state. -/
theorem c2_orig_m_frozen_witness :
    (wT0.trained = true
      ∧ lsqPolyFull wInp 1 true wT0 = some wT0
      ∧ rerun wInp wT0 wValid = some wT0)
    ∧ ((wT0.orig_m = wT0.orig_m
      ∧ wT0.lsq_prediction = wT0.orig_m.mulVec wT0.lsq_params
      ∧ wT0.cpm_prediction =
          (fun i => ∑ j, wT0.orig_m i (Fin.castAdd 1 j) * wT0.cpm_params j)
      ∧ wT0.poly_prediction =
          (fun i => (∑ j, wT0.orig_m i (Fin.natAdd 1 j) * wT0.poly_params j)
            - wT0.const_prediction))
    ∧ (wT0.orig_m = wT0.orig_m
      ∧ lsqCore (regVec 1 1 wT0.cpm_regularization wInp.poly_reg)
          (Matrix.of fun (i : {i : Fin 1 // wValid i = true}) j => wT0.orig_m i.1 j)
          (fun i => wInp.rescaled_target_fluxes i.1) = some wT0.lsq_params
      ∧ wT0.lsq_prediction = wT0.orig_m.mulVec wT0.lsq_params
      ∧ wT0.cpm_prediction =
          (fun i => ∑ j, wT0.orig_m i (Fin.castAdd 1 j) * wT0.cpm_params j)
      ∧ wT0.poly_prediction =
          (fun i => (∑ j, wT0.orig_m i (Fin.natAdd 1 j) * wT0.poly_params j)
            - wT0.const_prediction))) :=
  ⟨⟨rfl, wFit_eval2, wRerun_eval⟩,
    c2_orig_m_frozen wInp 1 true wValid wT0 wT0 wT0 rfl wFit_eval2 wRerun_eval⟩

/-- C3: in every polynomials=True fit, the constant term plus the
predictor-only prediction plus the constant-removed trend-only prediction
equals the reported full prediction, both for a full fit and for a sigma-clip
re-fit. -/
theorem c3_prediction_decomposition {T npred pterms : ℕ} [NeZero pterms]
    (inp : LsqInputs T npred pterms) (cpm_reg : ℚ) (rescale : Bool)
    (valid : Fin T → Bool) (s s1 s2 : PolyFitState T npred pterms)
    (h1 : lsqPolyFull inp cpm_reg rescale s = some s1)
    (h2 : rerun inp s valid = some s2) :
    (∀ i, s1.const_prediction + s1.cpm_prediction i + s1.poly_prediction i
        = s1.lsq_prediction i)
    ∧ (∀ i, s2.const_prediction + s2.cpm_prediction i + s2.poly_prediction i
        = s2.lsq_prediction i) := by
  have key : ∀ (origm : Matrix (Fin T) (Fin (npred + pterms)) ℚ)
      (β : Fin (npred + pterms) → ℚ) (c : ℚ) (i : Fin T),
      c + (∑ j, origm i (Fin.castAdd pterms j) * β (Fin.castAdd pterms j))
        + ((∑ j, origm i (Fin.natAdd npred j) * β (Fin.natAdd npred j)) - c)
        = origm.mulVec β i := by
    intro origm β c i
    rw [Matrix.mulVec, Matrix.dotProduct, Fin.sum_univ_add]
    ring
  constructor
  · cases hc : lsqCore (regVec npred pterms cpm_reg inp.poly_reg)
        (lsqPolyDesign rescale inp) (lsqPolyTarget rescale inp) with
    | none =>
      simp only [lsqPolyFull, hc] at h1
      exact Option.noConfusion h1
    | some β =>
      simp only [lsqPolyFull, hc, Option.some.injEq] at h1
      subst h1
      intro i
      exact key _ β _ i
  · cases htr : s.trained with
    | false =>
      rw [rerun, htr] at h2
      simp at h2
    | true =>
      rw [rerun, htr] at h2
      simp only [Bool.true_eq_false, if_false] at h2
      cases hc : lsqCore (regVec npred pterms s.cpm_regularization inp.poly_reg)
          (Matrix.of fun (i : {i : Fin T // valid i = true}) j => s.orig_m i.1 j)
          (fun i => inp.rescaled_target_fluxes i.1) with
      | none => rw [hc] at h2; exact Option.noConfusion h2
      | some β =>
        rw [hc] at h2
        simp only [Option.some.injEq] at h2
        subst h2
        intro i
        exact key _ β _ i

/-- Witness for C3 at the concrete trained one-sample state. -/
theorem c3_prediction_decomposition_witness :
    (lsqPolyFull wInp 1 true wT0 = some wT0
      ∧ rerun wInp wT0 wValid = some wT0)
    ∧ ((∀ i, wT0.const_prediction + wT0.cpm_prediction i + wT0.poly_prediction i
        = wT0.lsq_prediction i)
    ∧ (∀ i, wT0.const_prediction + wT0.cpm_prediction i + wT0.poly_prediction i
        = wT0.lsq_prediction i)) :=
  ⟨⟨wFit_eval2, wRerun_eval⟩,
    c3_prediction_decomposition wInp 1 true wValid wT0 wT0 wT0 wFit_eval2
      wRerun_eval⟩

/-- np.sum of a boolean mask: the number of True entries. -/
def countTrue {T : ℕ} (valid : Fin T → Bool) : ℕ :=
  (Finset.univ.filter fun i => valid i = true).card

/-- np.sum of the negated mask (line 432): the number of False entries. -/
def countFalse {T : ℕ} (valid : Fin T → Bool) : ℕ :=
  (Finset.univ.filter fun i => valid i = false).card

/-- Exact-rational encoding of the float comparison at lines 429 and 431 of
sigma_clip_process: a sample with residual d exceeds the clip boundary
sigma * sqrt(S / n), where S is the sum of squared residuals over the n
currently valid samples.  For n = 0 numpy produces nan from 0/0 and every
comparison against nan is False.  For nonnegative sigma both sides of the
comparison are nonnegative, so it is equivalent to its exact square
d^2 * n > sigma^2 * S.  For negative sigma the boundary is nonpositive: the
comparison holds whenever S is positive or d is nonzero. -/
def exceedsBoundary (sigma S d : ℚ) (n : ℕ) : Bool :=
  if n = 0 then false
  else if 0 ≤ sigma then decide (d ^ 2 * n > sigma ^ 2 * S)
  else decide (0 < S ∨ d ≠ 0)

/-- Lines 420 to 423: the clip model is the predictor-plus-constant
prediction when subtract_polynomials is False (in a polynomials=True trained
state cpm_prediction is always present, so the is-not-None test passes),
otherwise the full prediction. -/
def clipModel {T npred pterms : ℕ} (subPoly : Bool)
    (s : PolyFitState T npred pterms) : Fin T → ℚ :=
  if subPoly = false then fun i => s.cpm_prediction i + s.const_prediction
  else s.lsq_prediction

/-- Lines 425 to 431 of one sigma_clip_process iteration: the residual of the
rescaled target against the clip model, the boundary computed from the
currently valid samples, and the updated mask in which every sample whose
residual exceeds the boundary is set to False while all other entries keep
their previous value (entries are only ever turned False). -/
def clipNewValid {T : ℕ} (sigma : ℚ) (y model : Fin T → ℚ)
    (valid : Fin T → Bool) : Fin T → Bool :=
  let diff : Fin T → ℚ := fun i => y i - model i
  let S : ℚ := ∑ i ∈ Finset.univ.filter (fun i => valid i = true), diff i ^ 2
  fun i => valid i && ! exceedsBoundary sigma S (diff i) (countTrue valid)

/-- Result of the sigma-clip loop: convergence with the final validity mask
and fit state, or a failed re-fit (singular system inside lsq). -/
inductive ClipOutcome (T npred pterms : ℕ) where
  | converged (valid : Fin T → Bool) (s : PolyFitState T npred pterms)
  | fitFailure

/-- CPM.sigma_clip_process (lines 413 to 442), fuel-indexed.  Loop state: the
validity mask (all True on entry, line 415), the fit state, and
prev_clipped_counter (line 417).  Each iteration recomputes the mask, breaks
as converged when the newly clipped count total - prev is zero (lines 432 to
435), and otherwise accumulates prev and re-fits through _rerun on the
currently valid samples (lines 437 to 440).  The source while-loop has no
explicit bound; the termination theorem below shows that fuel T + 1 always
suffices, so none (fuel exhaustion) is unreachable from the real entry
state. -/
def sigmaClipLoop {T npred pterms : ℕ} [NeZero pterms]
    (inp : LsqInputs T npred pterms) (sigma : ℚ) (subPoly : Bool) :
    ℕ → (Fin T → Bool) → PolyFitState T npred pterms → ℕ →
      Option (ClipOutcome T npred pterms)
  | 0, _, _, _ => none
  | fuel + 1, valid, s, prev =>
    let newvalid := clipNewValid sigma inp.rescaled_target_fluxes
      (clipModel subPoly s) valid
    let total := countFalse newvalid
    if total - prev = 0 then some (.converged newvalid s)
    else
      match rerun inp s newvalid with
      | none => some .fitFailure
      | some s' =>
          sigmaClipLoop inp sigma subPoly fuel newvalid s' (prev + (total - prev))

/-- Entry point of sigma_clip_process: all samples valid, zero previously
clipped, and enough fuel for the worst case. -/
def sigmaClipProcess {T npred pterms : ℕ} [NeZero pterms]
    (inp : LsqInputs T npred pterms) (sigma : ℚ) (subPoly : Bool)
    (s : PolyFitState T npred pterms) : Option (ClipOutcome T npred pterms) :=
  sigmaClipLoop inp sigma subPoly (T + 1) (fun _ => true) s 0

theorem clipNewValid_le {T : ℕ} {sigma : ℚ} {y model : Fin T → ℚ}
    {valid : Fin T → Bool} {i : Fin T}
    (h : clipNewValid sigma y model valid i = true) : valid i = true := by
  simp only [clipNewValid, Bool.and_eq_true] at h
  exact h.1

theorem countTrue_mono {T : ℕ} {u v : Fin T → Bool}
    (h : ∀ i, u i = true → v i = true) : countTrue u ≤ countTrue v := by
  apply Finset.card_le_card
  intro i hi
  simp only [Finset.mem_filter, Finset.mem_univ, true_and] at hi ⊢
  exact h i hi

theorem countFalse_mono {T : ℕ} {u v : Fin T → Bool}
    (h : ∀ i, u i = true → v i = true) : countFalse v ≤ countFalse u := by
  apply Finset.card_le_card
  intro i hi
  simp only [Finset.mem_filter, Finset.mem_univ, true_and] at hi ⊢
  cases hu : u i with
  | false => rfl
  | true => rw [h i hu] at hi; exact Bool.noConfusion hi

theorem eq_of_le_of_countFalse_le {T : ℕ} {u v : Fin T → Bool}
    (h : ∀ i, u i = true → v i = true) (hc : countFalse u ≤ countFalse v) :
    u = v := by
  have hsub : (Finset.univ.filter fun i => v i = false) ⊆
      (Finset.univ.filter fun i => u i = false) := by
    intro i hi
    simp only [Finset.mem_filter, Finset.mem_univ, true_and] at hi ⊢
    cases hu : u i with
    | false => rfl
    | true => rw [h i hu] at hi; exact Bool.noConfusion hi
  have heq := Finset.eq_of_subset_of_card_le hsub hc
  funext i
  cases hu : u i with
  | false =>
    have : i ∈ Finset.univ.filter fun i => u i = false := by
      simp only [Finset.mem_filter, Finset.mem_univ, true_and]; exact hu
    rw [← heq] at this
    simp only [Finset.mem_filter, Finset.mem_univ, true_and] at this
    exact this.symm
  | true => exact (h i hu).symm

theorem countFalse_le_card {T : ℕ} (valid : Fin T → Bool) :
    countFalse valid ≤ T := by
  calc countFalse valid ≤ (Finset.univ : Finset (Fin T)).card :=
        Finset.card_filter_le _ _
    _ = T := by simp

/-- C4: properties of the sigma-clip loop, for every loop state whose
previously-clipped counter matches the mask (as at the real entry point, all
True and 0): (a) on convergence the valid set has only shrunk, sample-wise
and in count; (b) the loop stops exactly when an iteration newly invalidates
no sample, so the converged mask is a fixpoint of the clip step for the
returned state; (c) with fuel at least T + 1 minus the already-clipped
count the loop never exhausts its fuel, so the unbounded source loop
terminates within a bounded number of iterations. -/
theorem c4_sigma_clip {T npred pterms : ℕ} [NeZero pterms]
    (inp : LsqInputs T npred pterms) (sigma : ℚ) (subPoly : Bool)
    (fuel : ℕ) (valid : Fin T → Bool) (s : PolyFitState T npred pterms)
    (prev : ℕ) (hprev : prev = countFalse valid) :
    (∀ v' s', sigmaClipLoop inp sigma subPoly fuel valid s prev
        = some (.converged v' s') →
      (∀ i, v' i = true → valid i = true)
      ∧ countTrue v' ≤ countTrue valid
      ∧ clipNewValid sigma inp.rescaled_target_fluxes (clipModel subPoly s') v'
          = v')
    ∧ (countFalse valid + fuel ≥ T + 1 →
        sigmaClipLoop inp sigma subPoly fuel valid s prev ≠ none) := by
  induction fuel generalizing valid s prev with
  | zero =>
    constructor
    · intro v' s' hloop
      exact Option.noConfusion (hloop ▸ rfl : (none : Option (ClipOutcome T npred pterms)) = some (.converged v' s'))
    · intro hge
      have := countFalse_le_card valid
      omega
  | succ fuel ih =>
    have hle : ∀ i, clipNewValid sigma inp.rescaled_target_fluxes
        (clipModel subPoly s) valid i = true → valid i = true :=
      fun i => clipNewValid_le
    by_cases hif : countFalse (clipNewValid sigma inp.rescaled_target_fluxes
        (clipModel subPoly s) valid) - prev = 0
    · have hstep : sigmaClipLoop inp sigma subPoly (fuel + 1) valid s prev
          = some (.converged (clipNewValid sigma inp.rescaled_target_fluxes
              (clipModel subPoly s) valid) s) := by
        rw [sigmaClipLoop]
        simp only [hif, if_true]
      have hcfle : countFalse (clipNewValid sigma inp.rescaled_target_fluxes
          (clipModel subPoly s) valid) ≤ countFalse valid := by omega
      have hfix : clipNewValid sigma inp.rescaled_target_fluxes
          (clipModel subPoly s) valid = valid :=
        eq_of_le_of_countFalse_le hle hcfle
      constructor
      · intro v' s' hloop
        rw [hstep] at hloop
        simp only [Option.some.injEq, ClipOutcome.converged.injEq] at hloop
        obtain ⟨hv, hs⟩ := hloop
        subst hv; subst hs
        refine ⟨hle, countTrue_mono hle, ?_⟩
        rw [hfix]
        exact hfix
      · intro _
        rw [hstep]
        exact Option.noConfusion
    · have hprevlt : prev < countFalse (clipNewValid sigma
          inp.rescaled_target_fluxes (clipModel subPoly s) valid) := by
        have := countFalse_mono hle
        omega
      cases hr : rerun inp s (clipNewValid sigma inp.rescaled_target_fluxes
          (clipModel subPoly s) valid) with
      | none =>
        have hstep : sigmaClipLoop inp sigma subPoly (fuel + 1) valid s prev
            = some .fitFailure := by
          rw [sigmaClipLoop]
          simp only [hif, if_false, hr]
        constructor
        · intro v' s' hloop
          rw [hstep] at hloop
          simp only [Option.some.injEq] at hloop
          exact ClipOutcome.noConfusion hloop
        · intro _
          rw [hstep]
          exact Option.noConfusion
      | some s2 =>
        have hstep : sigmaClipLoop inp sigma subPoly (fuel + 1) valid s prev
            = sigmaClipLoop inp sigma subPoly fuel
              (clipNewValid sigma inp.rescaled_target_fluxes
                (clipModel subPoly s) valid) s2
              (prev + (countFalse (clipNewValid sigma
                inp.rescaled_target_fluxes (clipModel subPoly s) valid) - prev)) := by
          rw [sigmaClipLoop]
          simp only [hif, if_false, hr]
        have hprev2 : prev + (countFalse (clipNewValid sigma
            inp.rescaled_target_fluxes (clipModel subPoly s) valid) - prev)
            = countFalse (clipNewValid sigma inp.rescaled_target_fluxes
              (clipModel subPoly s) valid) := by omega
        have ihs := ih (clipNewValid sigma inp.rescaled_target_fluxes
            (clipModel subPoly s) valid) s2
          (prev + (countFalse (clipNewValid sigma inp.rescaled_target_fluxes
            (clipModel subPoly s) valid) - prev)) (by omega)
        constructor
        · intro v' s' hloop
          rw [hstep] at hloop
          obtain ⟨hshrink, hcount, hfix⟩ := ihs.1 v' s' hloop
          exact ⟨fun i hi => hle i (hshrink i hi),
            le_trans hcount (countTrue_mono hle), hfix⟩
        · intro hge
          rw [hstep]
          apply ihs.2
          omega

/-- Witness for C4 at the concrete one-sample state with full fuel. -/
theorem c4_sigma_clip_witness :
    (0 : ℕ) = countFalse wValid ∧
    ((∀ v' s', sigmaClipLoop wInp 5 false 2 wValid wT0 0
        = some (.converged v' s') →
      (∀ i, v' i = true → wValid i = true)
      ∧ countTrue v' ≤ countTrue wValid
      ∧ clipNewValid 5 wInp.rescaled_target_fluxes (clipModel false s') v'
          = v')
    ∧ (countFalse wValid + 2 ≥ 1 + 1 →
        sigmaClipLoop wInp 5 false 2 wValid wT0 0 ≠ none)) :=
  ⟨by decide, c4_sigma_clip wInp 5 false 2 wValid wT0 0 (by decide)⟩

/-- Boolean mask selection xs[mask] over aligned arrays, as in lines 32 to 34
of the constructor: keeps the entries whose mask value is True. -/
def maskFilter {α : Type} : List Bool → List α → List α
  | true :: g, x :: xs => x :: maskFilter g xs
  | false :: g, _ :: xs => maskFilter g xs
  | _, _ => []

/-- The aligned arrays held by the constructor after reading the file
(lines 18 to 21): the time axis, the flux frames, the error frames (frame
contents are irrelevant to the claims and kept as abstract types) and the
quality flags. -/
structure ImageStore (α β : Type) where
  time : List ℚ
  im_fluxes : List α
  im_errors : List β
  quality : List ℕ

/-- Lines 29 to 34 of the constructor with remove_bad=True: the good mask is
quality == 0, and time, im_fluxes and im_errors are filtered by it; the
quality attribute itself is left unfiltered. -/
def removeBad {α β : Type} (st : ImageStore α β) : ImageStore α β :=
  let good := st.quality.map fun q => decide (q = 0)
  { time := maskFilter good st.time
    im_fluxes := maskFilter good st.im_fluxes
    im_errors := maskFilter good st.im_errors
    quality := st.quality }

theorem maskFilter_length {α : Type} :
    ∀ (g : List Bool) (xs : List α), g.length = xs.length →
      (maskFilter g xs).length = g.countP id
  | [], [], _ => rfl
  | true :: g, x :: xs, h => by
    have := maskFilter_length g xs (by simpa using h)
    simp [maskFilter, this, List.countP_cons]
  | false :: g, x :: xs, h => by
    have := maskFilter_length g xs (by simpa using h)
    simp [maskFilter, this, List.countP_cons]
  | [], _ :: _, h => by simp at h
  | _ :: _, [], h => by simp at h

/-- A concrete store with one good and one bad sample, for C7. -/
def wSt7 : ImageStore ℕ ℕ where
  time := [1, 2]
  im_fluxes := [10, 20]
  im_errors := [3, 4]
  quality := [0, 7]

/-- Counterexample to C7 as stated: after bad-sample removal on a store with
one nonzero quality entry, the flux cube has 1 time sample but the
quality-flag array still has 2 entries, so the flux cube, error cube and
quality array do not all share the same time length. -/
theorem c7_counterexample :
    (removeBad wSt7).im_fluxes.length = 1
    ∧ (removeBad wSt7).quality.length = 2
    ∧ (1 : ℕ) ≠ 2 := by
  refine ⟨rfl, rfl, by decide⟩

/-- C7 amended: loading with bad-sample removal shrinks time, flux and error
consistently, by exactly the count of nonzero quality entries, to one common
new length; the quality-flag array itself is not filtered and keeps its
original length, so the three-way shared-time-length invariant holds among
time, flux and error but extends to the quality array only when no sample was
removed. -/
theorem c7_remove_bad_lengths {α β : Type} (st : ImageStore α β)
    (ht : st.time.length = st.quality.length)
    (hf : st.im_fluxes.length = st.quality.length)
    (he : st.im_errors.length = st.quality.length) :
    (removeBad st).im_fluxes.length
        = st.quality.length - st.quality.countP (fun q => decide (q ≠ 0))
    ∧ (removeBad st).time.length = (removeBad st).im_fluxes.length
    ∧ (removeBad st).im_errors.length = (removeBad st).im_fluxes.length
    ∧ (removeBad st).quality = st.quality := by
  have hmask : (st.quality.map fun q => decide (q = 0)).length
      = st.quality.length := List.length_map _ _
  have hcount : (st.quality.map fun q => decide (q = 0)).countP id
      = st.quality.countP (fun q => decide (q = 0)) := by
    rw [List.countP_map]
    rfl
  have hsplit : ∀ l : List ℕ, l.countP (fun q => decide (q = 0))
      + l.countP (fun q => decide (q ≠ 0)) = l.length := by
    intro l
    induction l with
    | nil => rfl
    | cons x t ih =>
      rw [List.countP_cons, List.countP_cons, List.length_cons]
      by_cases h : x = 0
      · rw [if_pos (by simp [h]), if_neg (by simp [h])]
        omega
      · rw [if_neg (by simp [h]), if_pos (by simp [h])]
        omega
  have hflux : (removeBad st).im_fluxes.length
      = st.quality.countP (fun q => decide (q = 0)) := by
    show (maskFilter _ st.im_fluxes).length = _
    rw [maskFilter_length _ _ (by rw [hmask, hf]), hcount]
  have htime : (removeBad st).time.length
      = st.quality.countP (fun q => decide (q = 0)) := by
    show (maskFilter _ st.time).length = _
    rw [maskFilter_length _ _ (by rw [hmask, ht]), hcount]
  have herr : (removeBad st).im_errors.length
      = st.quality.countP (fun q => decide (q = 0)) := by
    show (maskFilter _ st.im_errors).length = _
    rw [maskFilter_length _ _ (by rw [hmask, he]), hcount]
  have hzero : st.quality.countP (fun q => decide (q = 0))
      = st.quality.length - st.quality.countP (fun q => decide (q ≠ 0)) := by
    have := hsplit st.quality
    omega
  exact ⟨by rw [hflux, hzero], by rw [htime, hflux], by rw [herr, hflux], rfl⟩

/-- Witness for the amended C7 at the concrete two-sample store. -/
theorem c7_remove_bad_lengths_witness :
    (wSt7.time.length = wSt7.quality.length
      ∧ wSt7.im_fluxes.length = wSt7.quality.length
      ∧ wSt7.im_errors.length = wSt7.quality.length)
    ∧ ((removeBad wSt7).im_fluxes.length
        = wSt7.quality.length - wSt7.quality.countP (fun q => decide (q ≠ 0))
    ∧ (removeBad wSt7).time.length = (removeBad wSt7).im_fluxes.length
    ∧ (removeBad wSt7).im_errors.length = (removeBad wSt7).im_fluxes.length
    ∧ (removeBad wSt7).quality = wSt7.quality) :=
  ⟨⟨rfl, rfl, rfl⟩, c7_remove_bad_lengths wSt7 rfl rfl rfl⟩

/-- The flag and parameter fields consulted and assigned by the guarded entry
code of set_exclusion (lines 124 to 130), set_predictor_pixels (lines 156 to
161), lsq (lines 280 to 287) and xval (lines 205 to 213).  Fields that a
method would assign are Option-valued so that an untouched field is visibly
unchanged; the geometric mask data elided here is only assigned after the
guards. -/
structure SessionState where
  is_target_set : Bool
  is_exclusion_set : Bool
  are_predictors_set : Bool
  exclusion : Option ℕ
  method_predictor_pixels : Option String
  num_predictor_pixels : Option ℕ
  rescale : Option Bool
  polynomials : Option Bool
  cpm_regularization : Option ℚ

/-- Lines 124 to 130 and 150: set_exclusion returns immediately after the
printed report when the target is not set, mutating nothing; otherwise it
assigns the exclusion parameter and eventually the is_exclusion_set flag. -/
def setExclusionEntry (s : SessionState) (exclusion : ℕ) : SessionState :=
  if s.is_target_set = false then s
  else { s with exclusion := some exclusion, is_exclusion_set := true }

/-- Lines 152 to 161 and 194: set_predictor_pixels returns immediately after
the printed report when target or exclusion is not set, mutating no object
state (the np.random.seed call at line 154 touches only the global numpy
generator); otherwise it assigns method, count and eventually the
are_predictors_set flag. -/
def setPredictorEntry (s : SessionState) (n : ℕ) (method : String) :
    SessionState :=
  if s.is_target_set = false ∨ s.is_exclusion_set = false then s
  else { s with method_predictor_pixels := some method,
                num_predictor_pixels := some n }

/-- Lines 280 to 287 of lsq: the prerequisite guard only prints the message
and does not return, so the assignments of cpm_regularization, rescale and
polynomials at lines 284 to 287 run unconditionally, whether or not the
prerequisites are met. -/
def lsqEntry (s : SessionState) (cpm_reg : ℚ) (rescale polys : Bool) :
    SessionState :=
  { s with cpm_regularization := some cpm_reg,
           rescale := some rescale,
           polynomials := some polys }

/-- Lines 205 to 213 of xval: same shape as the lsq guard, the printed report
is not followed by a return and the assignments run unconditionally. -/
def xvalEntry (s : SessionState) (cpm_reg : ℚ) (rescale polys : Bool) :
    SessionState :=
  { s with cpm_regularization := some cpm_reg,
           rescale := some rescale,
           polynomials := some polys }

/-- The freshly constructed session: no stage flags set, no parameters
assigned (lines 44 to 84). -/
def freshSession : SessionState where
  is_target_set := false
  is_exclusion_set := false
  are_predictors_set := false
  exclusion := none
  method_predictor_pixels := none
  num_predictor_pixels := none
  rescale := none
  polynomials := none
  cpm_regularization := none

/-- C8 at the failing input: on a fresh session, set_exclusion and
set_predictor_pixels abort without mutating any state, as the claim says,
but lsq and xval invoked before the predictors are set do not abort: despite
the missing prerequisites they mutate cpm_regularization (as well as rescale
and polynomials) before failing later, contradicting the claimed
no-state-mutated abort. -/
theorem c8_prerequisite_guard :
    setExclusionEntry freshSession 3 = freshSession
    ∧ setPredictorEntry freshSession 5 "similar_brightness" = freshSession
    ∧ freshSession.cpm_regularization = none
    ∧ (lsqEntry freshSession 1 true false).cpm_regularization = some 1
    ∧ (xvalEntry freshSession 1 true false).cpm_regularization = some 1 :=
  ⟨rfl, rfl, rfl, rfl, rfl⟩

/-- The trained state reached by the raw-path witness fit of C9. -/
def wT9 : PolyFitState 1 1 1 :=
  fitTail wInp 1 (lsqPolyDesign false wInp) ![50 / 51, 5 / 51]

theorem wCore9_eval :
    lsqCore (regVec 1 1 (1 : ℚ) wInp.poly_reg) (lsqPolyDesign false wInp)
      (lsqPolyTarget false wInp) = some ![50 / 51, 5 / 51] := by
  unfold lsqCore solveLin
  norm_num [detQ, cramerQ, regVec, lsqPolyDesign, lsqPolyTarget, wInp, hstack,
    Matrix.mul_apply, Matrix.mulVec, Matrix.dotProduct, Matrix.diagonal,
    Matrix.transpose, Fin.sum_univ_succ, Matrix.updateColumn, Function.update,
    Fin.append, Fin.addCases, Matrix.of_apply, Matrix.cons_val_zero,
    Matrix.cons_val_one, Matrix.head_cons, Fin.succAbove, Matrix.submatrix]
  funext i
  fin_cases i <;>
    norm_num [detQ, cramerQ, Fin.sum_univ_succ, Matrix.updateColumn,
      Function.update, Matrix.of_apply, Matrix.cons_val_zero,
      Matrix.cons_val_one, Matrix.head_cons, Fin.succAbove, Matrix.submatrix,
      Pi.smul_apply, smul_eq_mul, Matrix.vecHead, Function.comp,
      Matrix.mul_apply, Fin.append, Fin.addCases, Matrix.mulVec,
      Matrix.dotProduct]

theorem wFit9_eval : lsqPolyFull wInp 1 false wS0 = some wT9 := by
  simp only [lsqPolyFull, wCore9_eval]
  rfl

/-- Counterexample to C9 as stated: a raw-path fit (rescale=False, no
override inputs) with polynomials=True succeeds and stores a nonzero trend
coefficient, which could not exist had the trend basis not been concatenated
into the design matrix; the combination is handled silently, not skipped or
rejected. -/
theorem c9_counterexample :
    lsqPolyFull wInp 1 false wS0 = some wT9
    ∧ wT9.poly_params 0 = 5 / 51
    ∧ (5 / 51 : ℚ) ≠ 0 := by
  refine ⟨wFit9_eval, rfl, by norm_num⟩

/-- C9 amended: on the raw path (rescale=False, no override inputs) with
polynomials=True the trend basis IS concatenated, onto the raw predictor
fluxes: the assembly skips the concatenation only when an override design
matrix is supplied, so the solved coefficients of a raw-path fit satisfy the
normal equations of the trend-concatenated raw design matrix against the raw
target, and the combination is silently handled like the rescaled path
rather than documented or rejected. -/
theorem c9_raw_path_concatenates {T npred pterms : ℕ} [NeZero pterms]
    (inp : LsqInputs T npred pterms) (cpm_reg : ℚ)
    (s t : PolyFitState T npred pterms)
    (h : lsqPolyFull inp cpm_reg false s = some t) :
    ((hstack inp.predictor_pixels_fluxes inp.v_matrix).transpose *
        hstack inp.predictor_pixels_fluxes inp.v_matrix +
        Matrix.diagonal (regVec npred pterms cpm_reg inp.poly_reg)).mulVec
        t.lsq_params =
      (hstack inp.predictor_pixels_fluxes inp.v_matrix).transpose.mulVec
        inp.target_fluxes := by
  cases hc : lsqCore (regVec npred pterms cpm_reg inp.poly_reg)
      (lsqPolyDesign false inp) (lsqPolyTarget false inp) with
  | none =>
    simp only [lsqPolyFull, hc] at h
    exact Option.noConfusion h
  | some β =>
    simp only [lsqPolyFull, hc, Option.some.injEq] at h
    have hp : t.lsq_params = β := by rw [← h]; rfl
    rw [hp]
    exact lsqCore_spec hc

/-- Witness for the amended C9 at the concrete raw-path fit. -/
theorem c9_raw_path_concatenates_witness :
    lsqPolyFull wInp 1 false wS0 = some wT9
    ∧ ((hstack wInp.predictor_pixels_fluxes wInp.v_matrix).transpose *
        hstack wInp.predictor_pixels_fluxes wInp.v_matrix +
        Matrix.diagonal (regVec 1 1 1 wInp.poly_reg)).mulVec
        wT9.lsq_params =
      (hstack wInp.predictor_pixels_fluxes wInp.v_matrix).transpose.mulVec
        wInp.target_fluxes :=
  ⟨wFit9_eval, c9_raw_path_concatenates wInp 1 wS0 wT9 wFit9_eval⟩

/-- The four exclusion geometries of set_exclusion (lines 135 to 147).  An
unrecognized method string would leave the exclusion empty in the source;
only the four documented methods are modelled. -/
inductive ExclusionMethod where
  | closest
  | cross
  | rowExclude
  | colExclude

/-- Python slice assignment bounds of lines 136 to 147: index v lies in the
band [max(0, x - e), min(x + e + 1, S)); natural subtraction x - e equals
max(0, x - e) over the integers. -/
def inBand (x e S v : ℕ) : Bool := decide (x - e ≤ v ∧ v < min (x + e + 1) S)

/-- Lines 134 to 147: the excluded_pixels 0/1 image around target (r, c), as
a Boolean predicate on (row, col). -/
def excludedPixels (S r c e : ℕ) (method : ExclusionMethod) (i j : ℕ) :
    Bool :=
  match method with
  | .closest => inBand r e S i && inBand c e S j
  | .cross => inBand r e S i || inBand c e S j
  | .rowExclude => inBand r e S i
  | .colExclude => inBand c e S j

/-- Line 149: the mask attribute of the numpy masked array is True exactly
where excluded_pixels is 0, so it marks the eligible predictor positions. -/
def eligiblePixel (S r c e : ℕ) (method : ExclusionMethod) (i j : ℕ) :
    Bool :=
  ! excludedPixels S r c e method i j

/-- Lines 164 to 166 of set_predictor_pixels: the eligible linear pixel
indices of the raveled row-major S x S grid, in increasing order; linear
index k decodes to row k / S and column k mod S (line 186). -/
def possibleIdx (S r c e : ℕ) (method : ExclusionMethod) : List ℕ :=
  (List.range (S * S)).filter fun k => eligiblePixel S r c e method (k / S) (k % S)

/-- Lines 171 to 174 of set_predictor_pixels, method similar_brightness:
rank the eligible pixels by the absolute difference between their raw median
and the raw target median and keep the first num of them.  np.argsort is
modelled as a stable sort; the numpy default kind is quicksort, whose order
on exact ties is implementation-defined, and the spec fixes the stable
order.  The slice [0:num] silently truncates when fewer than num eligible
pixels exist. -/
def similarBrightnessChosen (medians : ℕ → ℚ) (targetMedian : ℚ)
    (possible : List ℕ) (num : ℕ) : List ℕ :=
  (possible.mergeSort fun a b =>
    decide (|medians a - targetMedian| ≤ |medians b - targetMedian|)).take num

theorem eligiblePixel_target {S r c e : ℕ} (method : ExclusionMethod)
    (hr : r < S) (hc : c < S) :
    eligiblePixel S r c e method r c = false := by
  have hrb : inBand r e S r = true := by
    simp only [inBand, decide_eq_true_eq]
    omega
  have hcb : inBand c e S c = true := by
    simp only [inBand, decide_eq_true_eq]
    omega
  cases method <;>
    simp [eligiblePixel, excludedPixels, hrb, hcb]

theorem possibleIdx_nodup (S r c e : ℕ) (method : ExclusionMethod) :
    (possibleIdx S r c e method).Nodup :=
  (List.nodup_range _).filter _

theorem possibleIdx_not_target {S r c e : ℕ} (method : ExclusionMethod)
    (hr : r < S) (hc : c < S) : r * S + c ∉ possibleIdx S r c e method := by
  intro hmem
  simp only [possibleIdx, List.mem_filter] at hmem
  have hdiv : (r * S + c) / S = r := by
    rw [mul_comm r S, Nat.mul_add_div (by omega), Nat.div_eq_of_lt hc]
    omega
  have hmod : (r * S + c) % S = c := by
    rw [mul_comm r S, Nat.mul_add_mod]
    exact Nat.mod_eq_of_lt hc
  rw [hdiv, hmod, eligiblePixel_target method hr hc] at hmem
  exact Bool.noConfusion hmem.2

theorem key_le_trans {medians : ℕ → ℚ} {tm : ℚ} :
    ∀ (a b c : ℕ),
      decide (|medians a - tm| ≤ |medians b - tm|) = true →
      decide (|medians b - tm| ≤ |medians c - tm|) = true →
      decide (|medians a - tm| ≤ |medians c - tm|) = true := by
  intro a b c hab hbc
  simp only [decide_eq_true_eq] at *
  exact le_trans hab hbc

theorem key_le_total {medians : ℕ → ℚ} {tm : ℚ} :
    ∀ (a b : ℕ),
      (decide (|medians a - tm| ≤ |medians b - tm|)
        || decide (|medians b - tm| ≤ |medians a - tm|)) = true := by
  intro a b
  rcases le_total |medians a - tm| |medians b - tm| with h | h <;>
    simp [h]

theorem mem_take_of_pair_sublist {α : Type} [DecidableEq α] :
    ∀ {l : List α} {a b : α} {n : ℕ}, l.Nodup → List.Sublist [a, b] l →
      b ∈ l.take n → a ∈ l.take n := by
  intro l
  induction l with
  | nil =>
    intro a b n _ hsub hb
    simp at hb
  | cons x t ih =>
    intro a b n hnd hsub hb
    cases n with
    | zero => simp at hb
    | succ m =>
      simp only [List.take_succ_cons] at hb ⊢
      cases hsub with
      | cons₂ _ hrest =>
        exact List.mem_cons_self _ _
      | cons _ hrest =>
        have hbt : b ∈ t := hrest.subset (by simp)
        have hbx : b ≠ x := by
          intro hbx
          subst hbx
          exact (List.nodup_cons.mp hnd).1 hbt
        have hb2 : b ∈ t.take m := by
          rcases List.mem_cons.mp hb with h | h
          · exact absurd h hbx
          · exact h
        exact List.mem_cons_of_mem _ (ih (List.nodup_cons.mp hnd).2 hrest hb2)

/-- Lines 152 to 194 for method similar_brightness: the chosen linear pixel
indices from the eligible positions of the exclusion mask. -/
def setPredictorSimilar (S r c e : ℕ) (method : ExclusionMethod)
    (medians : ℕ → ℚ) (tm : ℚ) (num : ℕ) : List ℕ :=
  similarBrightnessChosen medians tm (possibleIdx S r c e method) num

theorem similarBrightnessChosen_of_sorted (medians : ℕ → ℚ) (tm : ℚ)
    (possible : List ℕ) (num : ℕ)
    (h : List.Pairwise (fun a b => |medians a - tm| ≤ |medians b - tm|)
      possible) :
    similarBrightnessChosen medians tm possible num = possible.take num := by
  unfold similarBrightnessChosen
  rw [List.mergeSort_of_sorted (h.imp fun hab => by simpa using hab)]

/-- Counterexample to C5 as stated: on a 2 x 2 image with target (0, 0) and
a closest exclusion of half-width 0, only 3 eligible pixels exist; asking
for 5 similar-brightness predictors does not fail, it silently returns the 3
eligible pixels, so the selected set does not contain exactly count
positions. -/
theorem c5_counterexample :
    setPredictorSimilar 2 0 0 0 .closest (fun k => (k : ℚ)) 0 5 = [1, 2, 3]
    ∧ (setPredictorSimilar 2 0 0 0 .closest (fun k => (k : ℚ)) 0 5).length
        = 3
    ∧ (3 : ℕ) ≠ 5 := by
  have hposs : possibleIdx 2 0 0 0 ExclusionMethod.closest = [1, 2, 3] := by
    decide
  have hchosen : setPredictorSimilar 2 0 0 0 .closest (fun k => (k : ℚ)) 0 5
      = [1, 2, 3] := by
    unfold setPredictorSimilar
    rw [hposs, similarBrightnessChosen_of_sorted]
    · rfl
    · refine List.Pairwise.cons ?_ (List.Pairwise.cons ?_ ?_)
      · intro b hb
        rcases List.mem_cons.mp hb with rfl | hb
        · norm_num
        · rcases List.mem_singleton.mp hb with rfl
          norm_num
      · intro b hb
        rcases List.mem_singleton.mp hb with rfl
        norm_num
      · exact List.pairwise_singleton _ _
  exact ⟨hchosen, by rw [hchosen]; rfl, by decide⟩

/-- Lines 176 to 183 of set_predictor_pixels, method cosine_similarity:
rank the eligible pixels by cosine similarity against the rescaled target,
reverse the ranking with [::-1] and keep the first num of them, so the slice
[0:num] keeps the num largest similarities and silently truncates when fewer
than num eligible pixels exist, exactly as at line 174.  np.argsort is
modelled as a stable sort as above.  The similarity scores of line 180 divide
by square-root vector norms and so have no exact rational value; every
property settled here holds for any score function, so the scores are a
parameter of the embedding. -/
def cosineSimilarityChosen (sim : ℕ → ℚ) (possible : List ℕ) (num : ℕ) :
    List ℕ :=
  ((possible.mergeSort fun a b => decide (sim a ≤ sim b)).reverse).take num

/-- Lines 152 to 194 for method cosine_similarity: the chosen linear pixel
indices from the eligible positions of the exclusion mask. -/
def setPredictorCosine (S r c e : ℕ) (method : ExclusionMethod)
    (sim : ℕ → ℚ) (num : ℕ) : List ℕ :=
  cosineSimilarityChosen sim (possibleIdx S r c e method) num

theorem selection_take_spec {S r c e num : ℕ} (method : ExclusionMethod)
    {l : List ℕ} (hperm : l.Perm (possibleIdx S r c e method))
    (hr : r < S) (hc : c < S) :
    (l.take num).length = min num (possibleIdx S r c e method).length
    ∧ (l.take num).Nodup
    ∧ (∀ k ∈ l.take num, k ∈ possibleIdx S r c e method)
    ∧ (∀ k ∈ l.take num,
        eligiblePixel S r c e method (k / S) (k % S) = true)
    ∧ r * S + c ∉ l.take num
    ∧ ((l.take num).map fun k => (k / S, k % S)).Nodup
    ∧ ((possibleIdx S r c e method).length ≤ num →
        (l.take num).Perm (possibleIdx S r c e method)) := by
  have hnodup : l.Nodup :=
    hperm.nodup_iff.mpr (possibleIdx_nodup S r c e method)
  have hmem : ∀ k ∈ l.take num, k ∈ possibleIdx S r c e method := by
    intro k hk
    exact hperm.mem_iff.mp (List.take_subset _ _ hk)
  have hchnodup : (l.take num).Nodup := (List.take_sublist _ _).nodup hnodup
  refine ⟨?_, hchnodup, hmem, ?_, ?_, ?_, ?_⟩
  · rw [List.length_take, hperm.length_eq]
  · intro k hk
    have := hmem k hk
    simp only [possibleIdx, List.mem_filter] at this
    exact this.2
  · intro hmem2
    exact possibleIdx_not_target method hr hc (hmem _ hmem2)
  · refine List.Nodup.map_on ?_ hchnodup
    intro x _ y _ hxy
    have h1 : x / S = y / S := congrArg Prod.fst hxy
    have h2 : x % S = y % S := congrArg Prod.snd hxy
    calc x = S * (x / S) + x % S := (Nat.div_add_mod x S).symm
      _ = S * (y / S) + y % S := by rw [h1, h2]
      _ = y := Nat.div_add_mod y S
  · intro hle
    rw [List.take_of_length_le (by rw [hperm.length_eq]; exact hle)]
    exact hperm

/-- C5 amended: for calls made after target and exclusion are set with
either argsort-based method, similar_brightness or cosine_similarity, the
selection contains exactly min(count, number of eligible pixels) distinct
pixel positions, each drawn from the eligible mask and therefore excluding
the target pixel; when fewer than count eligible positions exist these calls
do not fail but silently select every eligible position. -/
theorem c5_predictor_selection {S r c e num : ℕ} (method : ExclusionMethod)
    (medians : ℕ → ℚ) (tm : ℚ) (sim : ℕ → ℚ) (hr : r < S) (hc : c < S) :
    ((setPredictorSimilar S r c e method medians tm num).length
        = min num (possibleIdx S r c e method).length
    ∧ (setPredictorSimilar S r c e method medians tm num).Nodup
    ∧ (∀ k ∈ setPredictorSimilar S r c e method medians tm num,
        k ∈ possibleIdx S r c e method)
    ∧ (∀ k ∈ setPredictorSimilar S r c e method medians tm num,
        eligiblePixel S r c e method (k / S) (k % S) = true)
    ∧ r * S + c ∉ setPredictorSimilar S r c e method medians tm num
    ∧ ((setPredictorSimilar S r c e method medians tm num).map
        fun k => (k / S, k % S)).Nodup
    ∧ ((possibleIdx S r c e method).length ≤ num →
        (setPredictorSimilar S r c e method medians tm num).Perm
          (possibleIdx S r c e method)))
    ∧ ((setPredictorCosine S r c e method sim num).length
        = min num (possibleIdx S r c e method).length
    ∧ (setPredictorCosine S r c e method sim num).Nodup
    ∧ (∀ k ∈ setPredictorCosine S r c e method sim num,
        k ∈ possibleIdx S r c e method)
    ∧ (∀ k ∈ setPredictorCosine S r c e method sim num,
        eligiblePixel S r c e method (k / S) (k % S) = true)
    ∧ r * S + c ∉ setPredictorCosine S r c e method sim num
    ∧ ((setPredictorCosine S r c e method sim num).map
        fun k => (k / S, k % S)).Nodup
    ∧ ((possibleIdx S r c e method).length ≤ num →
        (setPredictorCosine S r c e method sim num).Perm
          (possibleIdx S r c e method))) := by
  constructor
  · exact selection_take_spec method (List.mergeSort_perm _ _) hr hc
  · exact selection_take_spec method
      ((List.reverse_perm _).trans (List.mergeSort_perm _ _)) hr hc

/-- Witness for the amended C5 on the concrete 2 x 2 grid, for both
argsort-based methods. -/
theorem c5_predictor_selection_witness :
    ((0 : ℕ) < 2 ∧ (0 : ℕ) < 2)
    ∧ (((setPredictorSimilar 2 0 0 0 .closest (fun k => (k : ℚ)) 0 1).length
        = min 1 (possibleIdx 2 0 0 0 .closest).length
    ∧ (setPredictorSimilar 2 0 0 0 .closest (fun k => (k : ℚ)) 0 1).Nodup
    ∧ (∀ k ∈ setPredictorSimilar 2 0 0 0 .closest (fun k => (k : ℚ)) 0 1,
        k ∈ possibleIdx 2 0 0 0 .closest)
    ∧ (∀ k ∈ setPredictorSimilar 2 0 0 0 .closest (fun k => (k : ℚ)) 0 1,
        eligiblePixel 2 0 0 0 .closest (k / 2) (k % 2) = true)
    ∧ 0 * 2 + 0 ∉ setPredictorSimilar 2 0 0 0 .closest (fun k => (k : ℚ)) 0 1
    ∧ ((setPredictorSimilar 2 0 0 0 .closest (fun k => (k : ℚ)) 0 1).map
        fun k => (k / 2, k % 2)).Nodup
    ∧ ((possibleIdx 2 0 0 0 .closest).length ≤ 1 →
        (setPredictorSimilar 2 0 0 0 .closest (fun k => (k : ℚ)) 0 1).Perm
          (possibleIdx 2 0 0 0 .closest)))
    ∧ ((setPredictorCosine 2 0 0 0 .closest (fun k => (k : ℚ)) 1).length
        = min 1 (possibleIdx 2 0 0 0 .closest).length
    ∧ (setPredictorCosine 2 0 0 0 .closest (fun k => (k : ℚ)) 1).Nodup
    ∧ (∀ k ∈ setPredictorCosine 2 0 0 0 .closest (fun k => (k : ℚ)) 1,
        k ∈ possibleIdx 2 0 0 0 .closest)
    ∧ (∀ k ∈ setPredictorCosine 2 0 0 0 .closest (fun k => (k : ℚ)) 1,
        eligiblePixel 2 0 0 0 .closest (k / 2) (k % 2) = true)
    ∧ 0 * 2 + 0 ∉ setPredictorCosine 2 0 0 0 .closest (fun k => (k : ℚ)) 1
    ∧ ((setPredictorCosine 2 0 0 0 .closest (fun k => (k : ℚ)) 1).map
        fun k => (k / 2, k % 2)).Nodup
    ∧ ((possibleIdx 2 0 0 0 .closest).length ≤ 1 →
        (setPredictorCosine 2 0 0 0 .closest (fun k => (k : ℚ)) 1).Perm
          (possibleIdx 2 0 0 0 .closest)))) :=
  ⟨⟨by decide, by decide⟩,
    c5_predictor_selection ExclusionMethod.closest (fun k => (k : ℚ)) 0
      (fun k => (k : ℚ)) (by decide) (by decide)⟩

/-- C6: with method similar_brightness the selection takes exactly the count
eligible pixels whose raw medians are nearest the target median: every chosen
pixel is at least as close as every unchosen eligible pixel; exact ties are
broken by the stable order of the eligible positions (an earlier eligible
pixel with the same distance is chosen whenever a later one is); and with
count 1 the selection is the single eligible pixel whose median is closest
to the target median. -/
theorem c6_similar_brightness {S r c e num : ℕ} (method : ExclusionMethod)
    (medians : ℕ → ℚ) (tm : ℚ) :
    (∀ a ∈ setPredictorSimilar S r c e method medians tm num,
      ∀ b ∈ possibleIdx S r c e method,
        b ∉ setPredictorSimilar S r c e method medians tm num →
          |medians a - tm| ≤ |medians b - tm|)
    ∧ (∀ a b : ℕ, |medians a - tm| = |medians b - tm| →
        List.Sublist [a, b] (possibleIdx S r c e method) →
        b ∈ setPredictorSimilar S r c e method medians tm num →
        a ∈ setPredictorSimilar S r c e method medians tm num)
    ∧ (num = 1 → possibleIdx S r c e method ≠ [] →
        ∃ a, setPredictorSimilar S r c e method medians tm num = [a]
          ∧ ∀ b ∈ possibleIdx S r c e method,
              |medians a - tm| ≤ |medians b - tm|) := by
  have hperm : ((possibleIdx S r c e method).mergeSort fun a b =>
      decide (|medians a - tm| ≤ |medians b - tm|)).Perm
      (possibleIdx S r c e method) :=
    List.mergeSort_perm _ _
  have hsorted : ((possibleIdx S r c e method).mergeSort fun a b =>
      decide (|medians a - tm| ≤ |medians b - tm|)).Pairwise
      (fun a b => decide (|medians a - tm| ≤ |medians b - tm|) = true) :=
    List.sorted_mergeSort key_le_trans key_le_total
      (possibleIdx S r c e method)
  refine ⟨?_, ?_, ?_⟩
  · intro a ha b hb hbn
    have hbs : b ∈ (possibleIdx S r c e method).mergeSort fun a b =>
        decide (|medians a - tm| ≤ |medians b - tm|) := hperm.mem_iff.mpr hb
    rw [← List.take_append_drop num ((possibleIdx S r c e method).mergeSort
      fun a b => decide (|medians a - tm| ≤ |medians b - tm|))] at hsorted
    obtain ⟨-, -, hcross⟩ := List.pairwise_append.mp hsorted
    have hbd : b ∈ ((possibleIdx S r c e method).mergeSort fun a b =>
        decide (|medians a - tm| ≤ |medians b - tm|)).drop num := by
      have hsplit := List.take_append_drop num
        ((possibleIdx S r c e method).mergeSort fun a b =>
          decide (|medians a - tm| ≤ |medians b - tm|))
      rcases List.mem_append.mp (show b ∈ _ ++ _ by rw [hsplit]; exact hbs)
        with h | h
      · exact absurd h hbn
      · exact h
    have := hcross a ha b hbd
    simpa using this
  · intro a b hkey hsub hbmem
    have hab : (fun a b => decide (|medians a - tm| ≤ |medians b - tm|)) a b
        = true := by
      simp [hkey]
    have hsub2 := List.pair_sublist_mergeSort key_le_trans key_le_total hab
      hsub
    have hnodup : ((possibleIdx S r c e method).mergeSort fun a b =>
        decide (|medians a - tm| ≤ |medians b - tm|)).Nodup :=
      hperm.nodup_iff.mpr (possibleIdx_nodup S r c e method)
    exact mem_take_of_pair_sublist hnodup hsub2 hbmem
  · intro hnum hne
    subst hnum
    cases hms : (possibleIdx S r c e method).mergeSort fun a b =>
        decide (|medians a - tm| ≤ |medians b - tm|) with
    | nil =>
      rw [hms] at hperm
      exact absurd (hperm.symm.eq_nil) hne
    | cons hd tl =>
      refine ⟨hd, ?_, ?_⟩
      · show (List.take _ _) = _
        rw [hms]
        rfl
      · intro b hb
        have hbs : b ∈ hd :: tl := by
          rw [← hms]
          exact hperm.mem_iff.mpr hb
        rcases List.mem_cons.mp hbs with h | h
        · subst h
          exact le_refl _
        · rw [hms] at hsorted
          have := (List.pairwise_cons.mp hsorted).1 b h
          simpa using this

/-- Witness for C6: on the concrete 2 x 2 grid with count 1 the selection is
a single eligible pixel whose median is closest to the target median. -/
theorem c6_similar_brightness_witness :
    ∃ a, setPredictorSimilar 2 0 0 0 .closest (fun k => (k : ℚ)) 0 1 = [a]
      ∧ ∀ b ∈ possibleIdx 2 0 0 0 .closest,
          |(a : ℚ) - 0| ≤ |(b : ℚ) - 0| :=
  (c6_similar_brightness ExclusionMethod.closest (fun k => (k : ℚ)) 0).2.2
    rfl (by decide)

/-- The fold sizes of sklearn KFold(k) over n samples (line 229): the first
n mod k folds have one element on top of the base size n / k. -/
def foldSizes (n k : ℕ) : List ℕ :=
  (List.range k).map fun i => n / k + if i < n % k then 1 else 0

/-- Contiguous index blocks of the given sizes, starting at start. -/
def chunks : ℕ → List ℕ → List (List ℕ)
  | _, [] => []
  | start, sz :: rest =>
      ((List.range sz).map fun t => start + t) :: chunks (start + sz) rest

/-- The contiguous held-out index blocks yielded by KFold(k).split at
line 230: k blocks covering the sample indices 0 to n - 1 in order. -/
def testFolds (n k : ℕ) : List (List ℕ) := chunks 0 (foldSizes n k)

/-- The training indices of one fold as yielded by KFold: every sample index
not held out, in increasing order. -/
def trainFold (n : ℕ) (test : List ℕ) : List ℕ :=
  (List.range n).filter fun t => decide (t ∉ test)

/-- Line 237 of xval: the entries of np.dot(m_train.T, m_train) + reg_matrix,
where m_train is the training-row submatrix; entry (i, j) sums the products
of columns i and j over the training rows only. -/
def trainGram {p : ℕ} (reg : Fin p → ℚ) (m : ℕ → Fin p → ℚ)
    (train : List ℕ) : Matrix (Fin p) (Fin p) ℚ :=
  Matrix.of fun i j =>
    (train.map fun t => m t i * m t j).sum + Matrix.diagonal reg i j

/-- Line 238 of xval: the entries of np.dot(m_train.T, y_train), summed over
the training rows only. -/
def trainMoment {p : ℕ} (m : ℕ → Fin p → ℚ) (y : ℕ → ℚ)
    (train : List ℕ) : Fin p → ℚ :=
  fun i => (train.map fun t => m t i * y t).sum

/-- One fold body of CPM.xval (lines 230 to 244): solve the regularized
normal equations assembled from the training rows only, then predict on the
held-out rows with the held-out submatrix (line 244), not the reference
design matrix. -/
def xvalFold {p : ℕ} (reg : Fin p → ℚ) (m : ℕ → Fin p → ℚ) (y : ℕ → ℚ)
    (n : ℕ) (test : List ℕ) : Option (List ℚ) :=
  match solveLin (trainGram reg m (trainFold n test))
      (trainMoment m y (trainFold n test)) with
  | none => none
  | some β => some (test.map fun t => ∑ j, m t j * β j)

/-- The fold loop of CPM.xval (lines 227 to 257): the prediction list gets
the per-fold held-out prediction appended (line 255) and the res list gets
the same prediction array appended again (line 256) — not the residual; the
residual computed at line 257 only overwrites the attribute self.residual
each fold. -/
def xvalGo {p : ℕ} (reg : Fin p → ℚ) (m : ℕ → Fin p → ℚ) (y : ℕ → ℚ)
    (n : ℕ) : List (List ℕ) → Option (List (List ℚ) × List (List ℚ))
  | [] => some ([], [])
  | test :: rest =>
    match xvalFold reg m y n test, xvalGo reg m y n rest with
    | some pred, some (ps, rs) => some (pred :: ps, pred :: rs)
    | _, _ => none

/-- CPM.xval (lines 205 to 260) for a design matrix with p columns, given as
a ℕ-indexed family of rows (only sample indices below n are used): run the
fold loop over the KFold partition of the n samples and return the pair
(prediction, res).  A singular fold system, on which numpy raises, is the
failure outcome none. -/
def xval {p : ℕ} (reg : Fin p → ℚ) (m : ℕ → Fin p → ℚ) (y : ℕ → ℚ)
    (n k : ℕ) : Option (List (List ℚ) × List (List ℚ)) :=
  xvalGo reg m y n (testFolds n k)

theorem foldSizes_sum (n k : ℕ) (hk : 0 < k) : (foldSizes n k).sum = n := by
  have h : ∀ (c q r : ℕ),
      ((List.range c).map fun i => q + if i < r then 1 else 0).sum
        = c * q + min c r := by
    intro c q r
    induction c with
    | zero => simp
    | succ c ih =>
      rw [List.range_succ, List.map_append, List.sum_append, ih]
      simp only [List.map_cons, List.map_nil, List.sum_cons, List.sum_nil]
      have hmul : (c + 1) * q = c * q + q := by ring
      by_cases hcr : c < r
      · rw [if_pos hcr]
        have h1 : min c r = c := by omega
        have h2 : min (c + 1) r = c + 1 := by omega
        omega
      · rw [if_neg hcr]
        have h1 : min c r = r := by omega
        have h2 : min (c + 1) r = r := by omega
        omega
  rw [foldSizes, h]
  have hr : n % k < k := Nat.mod_lt _ hk
  have hdm := Nat.div_add_mod n k
  have hmin : min k (n % k) = n % k := by omega
  omega

theorem chunks_join : ∀ (sizes : List ℕ) (start : ℕ),
    (chunks start sizes).flatten = (List.range sizes.sum).map fun t => start + t := by
  intro sizes
  induction sizes with
  | nil =>
    intro start
    simp [chunks]
  | cons sz rest ih =>
    intro start
    rw [chunks, List.flatten_cons, ih, List.sum_cons, List.range_add,
      List.map_append, List.map_map]
    have hcomp : ((fun t => start + t) ∘ fun t => sz + t)
        = fun t => start + sz + t := by
      funext t
      simp [Function.comp, Nat.add_assoc]
    rw [hcomp]

theorem testFolds_join (n k : ℕ) (hk : 0 < k) :
    (testFolds n k).flatten = List.range n := by
  rw [testFolds, chunks_join, foldSizes_sum n k hk]
  simp

theorem xvalGo_spec {p : ℕ} (reg : Fin p → ℚ) (m : ℕ → Fin p → ℚ)
    (y : ℕ → ℚ) (n : ℕ) :
    ∀ (folds : List (List ℕ)) (P R : List (List ℚ)),
      xvalGo reg m y n folds = some (P, R) →
      R = P ∧ List.Forall₂ (fun test pred => ∃ β,
        solveLin (trainGram reg m (trainFold n test))
          (trainMoment m y (trainFold n test)) = some β
        ∧ (trainGram reg m (trainFold n test)).mulVec β
            = trainMoment m y (trainFold n test)
        ∧ pred = test.map fun t => ∑ j, m t j * β j) folds P := by
  intro folds
  induction folds with
  | nil =>
    intro P R h
    simp only [xvalGo, Option.some.injEq, Prod.mk.injEq] at h
    obtain ⟨hP, hR⟩ := h
    subst hP
    subst hR
    exact ⟨rfl, List.Forall₂.nil⟩
  | cons test rest ih =>
    intro P R h
    rw [xvalGo] at h
    cases hf : xvalFold reg m y n test with
    | none => rw [hf] at h; simp at h
    | some pred =>
      rw [hf] at h
      cases hg : xvalGo reg m y n rest with
      | none => rw [hg] at h; simp at h
      | some pr =>
        rw [hg] at h
        obtain ⟨ps, rs⟩ := pr
        simp only [Option.some.injEq, Prod.mk.injEq] at h
        obtain ⟨hP, hR⟩ := h
        subst hP
        subst hR
        obtain ⟨hrs, hforall⟩ := ih ps rs hg
        subst hrs
        refine ⟨rfl, List.Forall₂.cons ?_ hforall⟩
        rw [xvalFold] at hf
        cases hcore : solveLin (trainGram reg m (trainFold n test))
            (trainMoment m y (trainFold n test)) with
        | none => rw [hcore] at hf; simp at hf
        | some β =>
          rw [hcore] at hf
          simp only [Option.some.injEq] at hf
          exact ⟨β, rfl, solveLin_spec hcore, hf.symm⟩

/-- The design-matrix rows of the C10 counterexample: a single predictor
column, constant 1. -/
def m10 : ℕ → Fin 1 → ℚ := fun _ _ => 1

/-- The target series of the C10 counterexample. -/
def y10 : ℕ → ℚ := fun t => if t = 1 then 2 else 0

theorem xval10_eval :
    xval (fun _ => (0 : ℚ)) m10 y10 2 2 = some ([[2], [0]], [[2], [0]]) := by
  have htf : testFolds 2 2 = [[0], [1]] := by decide
  have htrA : trainFold 2 [0] = [1] := by decide
  have htrB : trainFold 2 [1] = [0] := by decide
  have hgA : solveLin (trainGram (fun _ => (0 : ℚ)) m10 (trainFold 2 [0]))
      (trainMoment m10 y10 (trainFold 2 [0])) = some fun _ => 2 := by
    rw [htrA]
    unfold solveLin trainGram trainMoment
    norm_num [detQ, cramerQ, m10, y10, Fin.sum_univ_succ, Matrix.diagonal,
      Matrix.updateColumn, Function.update, Matrix.of_apply]
    funext i
    fin_cases i
    norm_num [detQ, cramerQ, Matrix.updateColumn, Function.update,
      Fin.sum_univ_succ, Matrix.of_apply, Pi.smul_apply, smul_eq_mul, m10,
      y10, Matrix.diagonal]
  have hgB : solveLin (trainGram (fun _ => (0 : ℚ)) m10 (trainFold 2 [1]))
      (trainMoment m10 y10 (trainFold 2 [1])) = some fun _ => 0 := by
    rw [htrB]
    unfold solveLin trainGram trainMoment
    norm_num [detQ, cramerQ, m10, y10, Fin.sum_univ_succ, Matrix.diagonal,
      Matrix.updateColumn, Function.update, Matrix.of_apply]
    funext i
    fin_cases i
    norm_num [detQ, cramerQ, Matrix.updateColumn, Function.update,
      Fin.sum_univ_succ, Matrix.of_apply, Pi.smul_apply, smul_eq_mul, m10,
      y10, Matrix.diagonal]
  have hfA : xvalFold (fun _ => (0 : ℚ)) m10 y10 2 [0] = some [2] := by
    rw [xvalFold, hgA]
    norm_num [m10, Fin.sum_univ_succ]
  have hfB : xvalFold (fun _ => (0 : ℚ)) m10 y10 2 [1] = some [0] := by
    rw [xvalFold, hgB]
    norm_num [m10, Fin.sum_univ_succ]
  rw [xval, htf, xvalGo, hfA, xvalGo, hfB, xvalGo]

/-- Counterexample to C10 as stated: on two samples with two folds the call
returns the pair (prediction, res) in which both lists hold the per-fold
held-out predictions; the per-fold held-out residuals would be [[-2], [2]],
and the returned second list [[2], [0]] is not them, so the held-out
residual is not what is accumulated. -/
theorem c10_counterexample :
    xval (fun _ => (0 : ℚ)) m10 y10 2 2 = some ([[2], [0]], [[2], [0]])
    ∧ [[y10 0 - 2], [y10 1 - 0]] = [[(-2 : ℚ)], [2]]
    ∧ ([[2], [0]] : List (List ℚ)) ≠ [[-2], [2]] := by
  refine ⟨xval10_eval, by norm_num [y10], by norm_num⟩

/-- C10 amended: the k test folds of xval partition the time indices (their
concatenation is exactly the full index range, hence pairwise disjoint
coverage); for each fold the regularized normal equations are assembled and
solved from the training rows only, the held-out prediction is computed with
the held-out submatrix, and both components of the returned pair accumulate
the per-fold out-of-fold predictions — the held-out residual is computed
each fold but only overwrites an attribute and is not accumulated or
returned. -/
theorem c10_xval_folds {p : ℕ} (reg : Fin p → ℚ) (m : ℕ → Fin p → ℚ)
    (y : ℕ → ℚ) (n k : ℕ) (hk : 0 < k) :
    (testFolds n k).flatten = List.range n
    ∧ List.Pairwise List.Disjoint (testFolds n k)
    ∧ ∀ P R, xval reg m y n k = some (P, R) →
        R = P ∧ List.Forall₂ (fun test pred => ∃ β,
          solveLin (trainGram reg m (trainFold n test))
            (trainMoment m y (trainFold n test)) = some β
          ∧ (trainGram reg m (trainFold n test)).mulVec β
              = trainMoment m y (trainFold n test)
          ∧ pred = test.map fun t => ∑ j, m t j * β j)
          (testFolds n k) P := by
  have hjoin := testFolds_join n k hk
  refine ⟨hjoin, ?_, ?_⟩
  · have hnd : (testFolds n k).flatten.Nodup := by
      rw [hjoin]
      exact List.nodup_range n
    exact (List.nodup_flatten.mp hnd).2
  · intro P R h
    exact xvalGo_spec reg m y n (testFolds n k) P R h

/-- Witness for the amended C10 at the concrete two-sample two-fold call. -/
theorem c10_xval_folds_witness :
    (0 : ℕ) < 2
    ∧ ((testFolds 2 2).flatten = List.range 2
    ∧ List.Pairwise List.Disjoint (testFolds 2 2)
    ∧ ∀ P R, xval (fun _ => (0 : ℚ)) m10 y10 2 2 = some (P, R) →
        R = P ∧ List.Forall₂ (fun test pred => ∃ β,
          solveLin (trainGram (fun _ => (0 : ℚ)) m10 (trainFold 2 test))
            (trainMoment m10 y10 (trainFold 2 test)) = some β
          ∧ (trainGram (fun _ => (0 : ℚ)) m10 (trainFold 2 test)).mulVec β
              = trainMoment m10 y10 (trainFold 2 test)
          ∧ pred = test.map fun t => ∑ j, m10 t j * β j)
          (testFolds 2 2) P) :=
  ⟨by decide, c10_xval_folds (fun _ => (0 : ℚ)) m10 y10 2 2 (by decide)⟩

end TessCpm
